import Mathlib

/- Verification of the computation-graph core in src/cnn/cnn.h: the Dim
   value type, the Hypergraph builder add_function, and the structural
   invariants of graphs built through the public builder interface. -/

namespace Cnn

/-- Shape descriptor: struct Dim of cnn.h. rows and cols are stored in
unsigned short fields, hence always below 2^16; those bounds are carried
as invariants of the structure. -/
structure Dim where
  rows : Nat
  cols : Nat
  rows_lt : rows < 65536
  cols_lt : cols < 65536

/-- Constructor Dim(unsigned m, unsigned n): both arguments are narrowed
to unsigned short on store, i.e. reduced modulo 2^16. -/
def mkDim (m n : Nat) : Dim :=
  ⟨m % 65536, n % 65536, Nat.mod_lt m (by decide), Nat.mod_lt n (by decide)⟩

/-- Constructor Dim(): rows(1), cols(1). -/
def dimDefault : Dim := ⟨1, 1, by decide, by decide⟩

/-- Constructor explicit Dim(unsigned m): rows(m), cols(1). -/
def dimOfRows (m : Nat) : Dim := mkDim m 1

/-- Dim::transpose: returns Dim(cols, rows). -/
def Dim.transpose (d : Dim) : Dim := mkDim d.cols d.rows

/-- operator*(const Dim&, const Dim&): asserts a.cols == b.rows and
returns Dim(a.rows, b.cols); a failed assertion is modelled as none. -/
def dimMul (a b : Dim) : Option Dim :=
  if a.cols = b.rows then some (mkDim a.rows b.cols) else none

/-- struct Node of cnn.h: the dependency structure (in_edge, out_edges)
and the debug name. The Matrix slots f and dEdf are transient per-pass
state, not graph structure. -/
structure Node where
  in_edge : Nat
  out_edges : List Nat
  var_name : String

/-- struct Edge of cnn.h, structural part: head_node and tail. The
virtual forward/backward members are the external function identity. -/
structure Edge where
  head_node : Nat
  tail : List Nat

/-- Edge::arity: the number of arguments, tail.size(). -/
def Edge.arity (e : Edge) : Nat := e.tail.length

/-- struct Hypergraph of cnn.h: the edge vector and the node vector. -/
structure Hypergraph where
  edges : List Edge
  nodes : List Node

/-- Index into a list, as C++ vector indexing with the in-range check
made explicit: out of range yields none. -/
def nth : List α → Nat → Option α
  | [], _ => none
  | a :: _, 0 => some a
  | _ :: l, i + 1 => nth l i

/-- Replace the element at position i by f of itself when i is in range
(vector element mutation), leaving the list unchanged otherwise. -/
def modifyNode : List Node → Nat → (Node → Node) → List Node
  | [], _, _ => []
  | n :: rest, 0, f => f n :: rest
  | n :: rest, i + 1, f => n :: modifyNode rest i f

/-- out_edges.push_back(e) on one node. -/
def pushOut (e : Nat) (n : Node) : Node :=
  { n with out_edges := n.out_edges ++ [e] }

/-- Effect of the add_function loop on the node vector alone: for each
argument index, append the edge index e to that node's out_edges. -/
def pushAll (e : Nat) (ns : List Node) (args : List Nat) : List Node :=
  args.foldl (fun acc ni => modifyNode acc ni (pushOut e)) ns

/-- Number of occurrences of the index v in a list of indices. -/
def countOcc (v : Nat) : List Nat → Nat
  | [] => 0
  | a :: rest => (if a = v then 1 else 0) + countOcc v rest

/-- Append k copies of the edge index e to a node's out_edges. -/
def appendOut (k e : Nat) (n : Node) : Node :=
  { n with out_edges := n.out_edges ++ List.replicate k e }

/-- Hypergraph::add_function (cnn.h): push a new node whose in_edge is
the new edge's index, push a new edge whose head_node is the new node's
index, then for each argument ni append ni to the edge's tail and the
new edge's index to nodes[ni]'s out_edges; return the new node's index.
The Function template parameter only selects the virtual table of the
new edge and is irrelevant to the structure. -/
def add_function (g : Hypergraph) (arguments : List Nat) (name : String) :
    Hypergraph × Nat :=
  let new_node_index := g.nodes.length
  let new_edge_index := g.edges.length
  let nodes0 := g.nodes ++
    [{ in_edge := new_edge_index, out_edges := [], var_name := name }]
  let loop := arguments.foldl
    (fun acc ni => (modifyNode acc.1 ni (pushOut new_edge_index), acc.2 ++ [ni]))
    (nodes0, [])
  ({ edges := g.edges ++ [{ head_node := new_node_index, tail := loop.2 }],
     nodes := loop.1 },
   new_node_index)

/-- The empty graph. -/
def emptyGraph : Hypergraph := { edges := [], nodes := [] }

/-- Build a graph by a sequence of builder calls, each given by its
argument-index list and its debug name. A call with an empty argument
list is the structural content of add_parameter / add_input, which the
spec describes as appending one vertex and one 0-arity edge. -/
def build (prog : List (List Nat × String)) : Hypergraph :=
  prog.foldl (fun g c => (add_function g c.1 c.2).1) emptyGraph

/-- Every listed call passes only indices of vertices that already exist
at the time of the call, given that n vertices exist before the first
listed call (each call appends exactly one vertex). -/
def validCalls (n : Nat) : List (List Nat × String) → Bool
  | [] => true
  | c :: rest => c.1.all (fun ni => decide (ni < n)) && validCalls (n + 1) rest

/-- Modelled from the spec: the body of Hypergraph::forward is not among
the repository sources (cnn.h only declares it). Spec section 4.5:
iterate the vertices in stored order; for vertex v with incoming edge e,
assemble the already-computed values of e.tail in tail order, invoke the
edge's forward function, and store the result in v's value slot. evalE
is the table of function identities (edge index to forward function);
d0 is a default never consulted on well-formed graphs. -/
def forwardValues {α : Type} (g : Hypergraph) (evalE : Nat → List α → α)
    (d0 : α) : List α :=
  g.nodes.foldl
    (fun vals nd =>
      vals ++ [evalE nd.in_edge
        ((((nth g.edges nd.in_edge).map Edge.tail).getD []).map
          (fun t => (nth vals t).getD d0))])
    []

/-- Modelled from the spec: forward() returns the value slot of the last
vertex of the stored sequence. -/
def forward {α : Type} (g : Hypergraph) (evalE : Nat → List α → α)
    (d0 : α) : Option α :=
  nth (forwardValues g evalE d0) (g.nodes.length - 1)

/-- The structural well-formedness invariants of a graph built through
the public builder interface. -/
structure WF (g : Hypergraph) : Prop where
  len_eq : g.nodes.length = g.edges.length
  head_idx : ∀ i e, nth g.edges i = some e → e.head_node = i
  in_idx : ∀ v n, nth g.nodes v = some n → n.in_edge = v
  topo : ∀ i e, nth g.edges i = some e → ∀ t ∈ e.tail, t < e.head_node
  link_out : ∀ i e, nth g.edges i = some e → ∀ t ∈ e.tail,
    ∃ n, nth g.nodes t = some n ∧ i ∈ n.out_edges
  link_in : ∀ v n, nth g.nodes v = some n → ∀ j ∈ n.out_edges,
    ∃ e, nth g.edges j = some e ∧ v ∈ e.tail

/- Basic facts about nth, modifyNode, countOcc and pushAll. -/

theorem nth_nil (i : Nat) : nth ([] : List α) i = none := rfl

theorem nth_some_lt {l : List α} {i : Nat} {a : α} (h : nth l i = some a) :
    i < l.length := by
  induction l generalizing i with
  | nil => simp [nth] at h
  | cons b t ih =>
    cases i with
    | zero => exact Nat.succ_pos t.length
    | succ j =>
      have := ih (i := j) h
      simpa using Nat.succ_lt_succ this

theorem lt_nth_some {l : List α} {i : Nat} (h : i < l.length) :
    ∃ a, nth l i = some a := by
  induction l generalizing i with
  | nil => simp at h
  | cons b t ih =>
    cases i with
    | zero => exact ⟨b, rfl⟩
    | succ j => exact ih (by simpa using h)

theorem nth_ge_none {l : List α} {i : Nat} (h : l.length ≤ i) :
    nth l i = none := by
  induction l generalizing i with
  | nil => rfl
  | cons b t ih =>
    cases i with
    | zero => simp at h
    | succ j => exact ih (by simpa using h)

theorem nth_append_left {l l' : List α} {i : Nat} (h : i < l.length) :
    nth (l ++ l') i = nth l i := by
  induction l generalizing i with
  | nil => simp at h
  | cons b t ih =>
    cases i with
    | zero => rfl
    | succ j => exact ih (by simpa using h)

theorem nth_concat_self (l : List α) (a : α) :
    nth (l ++ [a]) l.length = some a := by
  induction l with
  | nil => rfl
  | cons b t ih => exact ih

theorem nth_concat_cases {l : List α} {a x : α} {i : Nat}
    (h : nth (l ++ [a]) i = some x) :
    (i < l.length ∧ nth l i = some x) ∨ (i = l.length ∧ x = a) := by
  induction l generalizing i with
  | nil =>
    cases i with
    | zero =>
      right
      refine ⟨rfl, ?_⟩
      simpa [nth] using h.symm
    | succ j => simp [nth] at h
  | cons b t ih =>
    cases i with
    | zero =>
      left
      exact ⟨by simp, by simpa [nth] using h⟩
    | succ j =>
      rcases ih (i := j) h with ⟨hj, hx⟩ | ⟨hj, hx⟩
      · left
        exact ⟨by simpa using Nat.succ_lt_succ hj, hx⟩
      · right
        exact ⟨by simp [hj], hx⟩

theorem modifyNode_length (ns : List Node) (i : Nat) (f : Node → Node) :
    (modifyNode ns i f).length = ns.length := by
  induction ns generalizing i with
  | nil => rfl
  | cons n t ih =>
    cases i with
    | zero => rfl
    | succ j => simpa [modifyNode] using ih j

theorem nth_modifyNode_self (ns : List Node) (i : Nat) (f : Node → Node) :
    nth (modifyNode ns i f) i = (nth ns i).map f := by
  induction ns generalizing i with
  | nil => rfl
  | cons n t ih =>
    cases i with
    | zero => rfl
    | succ j => exact ih j

theorem nth_modifyNode_ne (ns : List Node) {v i : Nat} (f : Node → Node)
    (h : v ≠ i) : nth (modifyNode ns i f) v = nth ns v := by
  induction ns generalizing i v with
  | nil => rfl
  | cons n t ih =>
    cases i with
    | zero =>
      cases v with
      | zero => exact absurd rfl h
      | succ w => rfl
    | succ j =>
      cases v with
      | zero => rfl
      | succ w => exact ih (fun hh => h (by simp [hh]))

theorem countOcc_pos {v : Nat} {l : List Nat} :
    0 < countOcc v l ↔ v ∈ l := by
  induction l with
  | nil => simp [countOcc]
  | cons a t ih =>
    by_cases hav : a = v
    · subst hav
      simp [countOcc]
    · simp [countOcc, hav, ih, Ne.symm hav]

theorem pushAll_nil (e : Nat) (ns : List Node) : pushAll e ns [] = ns := rfl

theorem pushAll_cons (e : Nat) (ns : List Node) (a : Nat) (rest : List Nat) :
    pushAll e ns (a :: rest) = pushAll e (modifyNode ns a (pushOut e)) rest := rfl

theorem pushAll_length (e : Nat) (ns : List Node) (args : List Nat) :
    (pushAll e ns args).length = ns.length := by
  induction args generalizing ns with
  | nil => rfl
  | cons a rest ih =>
    rw [pushAll_cons, ih, modifyNode_length]

theorem nth_pushAll (e : Nat) (args : List Nat) (ns : List Node) (v : Nat) :
    nth (pushAll e ns args) v = (nth ns v).map (appendOut (countOcc v args) e) := by
  induction args generalizing ns with
  | nil =>
    cases h : nth ns v <;>
      simp [pushAll_nil, h, countOcc, appendOut, Node.mk.injEq]
  | cons a rest ih =>
    rw [pushAll_cons, ih]
    by_cases hav : a = v
    · subst hav
      rw [nth_modifyNode_self]
      cases h : nth ns a <;>
        simp [h, countOcc, appendOut, pushOut, List.replicate_succ, Nat.add_comm]
    · rw [nth_modifyNode_ne ns (pushOut e) (fun hh => hav hh.symm)]
      simp [countOcc, hav]

/- Decomposition of add_function into its effect on the edge vector and
   on the node vector. -/

theorem fold_split (e : Nat) (args : List Nat) :
    ∀ (ns : List Node) (acc : List Nat),
    args.foldl (fun p ni => (modifyNode p.1 ni (pushOut e), p.2 ++ [ni])) (ns, acc)
      = (pushAll e ns args, acc ++ args) := by
  induction args with
  | nil => intro ns acc; simp [pushAll_nil]
  | cons a rest ih =>
    intro ns acc
    simp only [List.foldl_cons]
    rw [ih, pushAll_cons]
    simp

theorem add_function_edges (g : Hypergraph) (args : List Nat) (name : String) :
    ((add_function g args name).1).edges
      = g.edges ++ [{ head_node := g.nodes.length, tail := args }] := by
  simp [add_function, fold_split]

theorem add_function_nodes (g : Hypergraph) (args : List Nat) (name : String) :
    ((add_function g args name).1).nodes
      = pushAll g.edges.length
          (g.nodes ++ [{ in_edge := g.edges.length, out_edges := [], var_name := name }])
          args := by
  simp [add_function, fold_split]

theorem add_function_snd (g : Hypergraph) (args : List Nat) (name : String) :
    (add_function g args name).2 = g.nodes.length := rfl

theorem add_function_nodes_length (g : Hypergraph) (args : List Nat) (name : String) :
    ((add_function g args name).1).nodes.length = g.nodes.length + 1 := by
  rw [add_function_nodes, pushAll_length]
  simp

theorem add_function_edges_length (g : Hypergraph) (args : List Nat) (name : String) :
    ((add_function g args name).1).edges.length = g.edges.length + 1 := by
  rw [add_function_edges]
  simp

theorem nth_add_function_nodes (g : Hypergraph) (args : List Nat) (name : String)
    (v : Nat) :
    nth ((add_function g args name).1).nodes v
      = (nth (g.nodes ++ [{ in_edge := g.edges.length, out_edges := [], var_name := name }]) v).map
          (appendOut (countOcc v args) g.edges.length) := by
  rw [add_function_nodes, nth_pushAll]

theorem nth_add_function_nodes_old (g : Hypergraph) (args : List Nat) (name : String)
    {v : Nat} {n : Node} (h : nth g.nodes v = some n) :
    nth ((add_function g args name).1).nodes v
      = some (appendOut (countOcc v args) g.edges.length n) := by
  rw [nth_add_function_nodes, nth_append_left (nth_some_lt h), h]
  rfl

theorem nth_add_function_nodes_new (g : Hypergraph) (args : List Nat) (name : String) :
    nth ((add_function g args name).1).nodes g.nodes.length
      = some (appendOut (countOcc g.nodes.length args) g.edges.length
          { in_edge := g.edges.length, out_edges := [], var_name := name }) := by
  rw [nth_add_function_nodes, nth_concat_self]
  rfl

/- Preservation of the structural invariants by add_function. -/

theorem WF_add_function (g : Hypergraph) (args : List Nat) (name : String)
    (hwf : WF g) (hargs : ∀ ni ∈ args, ni < g.nodes.length) :
    WF (add_function g args name).1 := by
  constructor
  · rw [add_function_nodes_length, add_function_edges_length, hwf.len_eq]
  · intro i e h
    rw [add_function_edges] at h
    rcases nth_concat_cases h with ⟨_, hold⟩ | ⟨hi, he⟩
    · exact hwf.head_idx i e hold
    · subst hi; subst he
      exact hwf.len_eq
  · intro v n h
    rw [nth_add_function_nodes] at h
    rcases Option.map_eq_some'.mp h with ⟨n0, hn0, hmap⟩
    rcases nth_concat_cases hn0 with ⟨_, hold⟩ | ⟨hv, hnew⟩
    · have := hwf.in_idx v n0 hold
      rw [← hmap]
      simpa [appendOut] using this
    · subst hnew
      rw [← hmap]
      simpa [appendOut] using hwf.len_eq.symm.trans hv.symm
  · intro i e h t ht
    rw [add_function_edges] at h
    rcases nth_concat_cases h with ⟨_, hold⟩ | ⟨_, he⟩
    · exact hwf.topo i e hold t ht
    · subst he
      exact hargs t ht
  · intro i e h t ht
    rw [add_function_edges] at h
    rcases nth_concat_cases h with ⟨_, hold⟩ | ⟨hi, he⟩
    · obtain ⟨n, hn, hmem⟩ := hwf.link_out i e hold t ht
      refine ⟨appendOut (countOcc t args) g.edges.length n,
        nth_add_function_nodes_old g args name hn, ?_⟩
      simp [appendOut]
      exact Or.inl hmem
    · subst he
      have htargs : t ∈ args := ht
      have htlt : t < g.nodes.length := hargs t htargs
      obtain ⟨n, hn⟩ := lt_nth_some htlt
      refine ⟨appendOut (countOcc t args) g.edges.length n,
        nth_add_function_nodes_old g args name hn, ?_⟩
      have hkpos : countOcc t args ≠ 0 :=
        Nat.pos_iff_ne_zero.mp (countOcc_pos.mpr htargs)
      simp [appendOut, hi, List.mem_replicate, hkpos]
  · intro v n h j hj
    rw [nth_add_function_nodes] at h
    rcases Option.map_eq_some'.mp h with ⟨n0, hn0, hmap⟩
    rw [← hmap] at hj
    simp only [appendOut, List.mem_append] at hj
    rcases hj with hjo | hjr
    · rcases nth_concat_cases hn0 with ⟨_, hold⟩ | ⟨_, hnew⟩
      · obtain ⟨e0, he0, hmem⟩ := hwf.link_in v n0 hold j hjo
        refine ⟨e0, ?_, hmem⟩
        rw [add_function_edges, nth_append_left (nth_some_lt he0)]
        exact he0
      · subst hnew
        simp at hjo
    · obtain ⟨hk, hje⟩ := List.mem_replicate.mp hjr
      have hv : v ∈ args := countOcc_pos.mp (Nat.pos_of_ne_zero hk)
      refine ⟨{ head_node := g.nodes.length, tail := args }, ?_, hv⟩
      rw [add_function_edges, hje]
      exact nth_concat_self g.edges _

theorem WF_empty : WF emptyGraph := by
  constructor
  · rfl
  · intro i e h
    simp [emptyGraph, nth_nil] at h
  · intro v n h
    simp [emptyGraph, nth_nil] at h
  · intro i e h
    simp [emptyGraph, nth_nil] at h
  · intro i e h
    simp [emptyGraph, nth_nil] at h
  · intro v n h
    simp [emptyGraph, nth_nil] at h

theorem WF_buildFrom (prog : List (List Nat × String)) :
    ∀ (g : Hypergraph), WF g → validCalls g.nodes.length prog = true →
    WF (prog.foldl (fun g c => (add_function g c.1 c.2).1) g) := by
  induction prog with
  | nil => intro g hwf _; exact hwf
  | cons c rest ih =>
    intro g hwf hv
    simp only [validCalls, Bool.and_eq_true] at hv
    obtain ⟨h1, h2⟩ := hv
    simp only [List.all_eq_true, decide_eq_true_eq] at h1
    simp only [List.foldl_cons]
    apply ih
    · exact WF_add_function g c.1 c.2 hwf h1
    · rw [add_function_nodes_length]
      exact h2

theorem WF_build (prog : List (List Nat × String))
    (h : validCalls 0 prog = true) : WF (build prog) :=
  WF_buildFrom prog emptyGraph WF_empty h

/- Length of the forward value table. -/

theorem foldl_snoc_length {α β : Type} (l : List β) (F : List α → β → α) :
    ∀ init : List α,
    (l.foldl (fun vals b => vals ++ [F vals b]) init).length
      = init.length + l.length := by
  induction l with
  | nil => intro init; simp
  | cons b t ih =>
    intro init
    simp only [List.foldl_cons]
    rw [ih]
    simp
    omega

theorem forwardValues_length {α : Type} (g : Hypergraph)
    (evalE : Nat → List α → α) (d0 : α) :
    (forwardValues g evalE d0).length = g.nodes.length := by
  have := foldl_snoc_length g.nodes
    (fun vals nd => evalE nd.in_edge
      ((((nth g.edges nd.in_edge).map Edge.tail).getD []).map
        (fun t => (nth vals t).getD d0))) []
  simpa [forwardValues] using this

/-- C1: in every graph built by a sequence of builder calls in which every
index passed in an add_function argument list already exists in the graph,
every edge's tail-vertex indices are strictly less than its head-vertex
index; construction is the only mutation, so the property is permanent. -/
theorem claim_C1_topological (prog : List (List Nat × String))
    (h : validCalls 0 prog = true) :
    ∀ i e, nth (build prog).edges i = some e → ∀ t ∈ e.tail, t < e.head_node :=
  (WF_build prog h).topo

theorem claim_C1_witness :
    validCalls 0 [([], "x"), ([], "y"), ([0, 1], "z"), ([2, 0], "w")] = true
    ∧ (∀ i e,
        nth (build [([], "x"), ([], "y"), ([0, 1], "z"), ([2, 0], "w")]).edges i
          = some e → ∀ t ∈ e.tail, t < e.head_node) :=
  ⟨by decide,
   claim_C1_topological [([], "x"), ([], "y"), ([0, 1], "z"), ([2, 0], "w")]
     (by decide)⟩

/-- C2: each add_function call appends exactly one vertex and one edge,
sets the new edge's head to the new vertex, copies the argument indices in
order into the edge's tail (arity equals the number of arguments), appends
the new edge's index to each argument vertex's outgoing list (once per
occurrence), and returns the new vertex's index, the number of vertices
before the call. -/
theorem claim_C2_add_function_post (g : Hypergraph) (args : List Nat)
    (name : String) (_h : ∀ ni ∈ args, ni < g.nodes.length) :
    (add_function g args name).2 = g.nodes.length
    ∧ ((add_function g args name).1).nodes.length = g.nodes.length + 1
    ∧ ((add_function g args name).1).edges.length = g.edges.length + 1
    ∧ nth ((add_function g args name).1).edges g.edges.length
        = some { head_node := g.nodes.length, tail := args }
    ∧ Edge.arity { head_node := g.nodes.length, tail := args } = args.length
    ∧ ∀ v n, nth g.nodes v = some n →
        nth ((add_function g args name).1).nodes v
          = some { n with out_edges :=
              n.out_edges ++ List.replicate (countOcc v args) g.edges.length } := by
  refine ⟨add_function_snd g args name, add_function_nodes_length g args name,
    add_function_edges_length g args name, ?_, rfl, ?_⟩
  · rw [add_function_edges]
    exact nth_concat_self g.edges _
  · intro v n hn
    exact nth_add_function_nodes_old g args name hn

theorem claim_C2_witness :
    (∀ ni ∈ [0], ni < (build [([], "x")]).nodes.length)
    ∧ ((add_function (build [([], "x")]) [0] "y").2 = (build [([], "x")]).nodes.length
      ∧ ((add_function (build [([], "x")]) [0] "y").1).nodes.length
          = (build [([], "x")]).nodes.length + 1
      ∧ ((add_function (build [([], "x")]) [0] "y").1).edges.length
          = (build [([], "x")]).edges.length + 1
      ∧ nth ((add_function (build [([], "x")]) [0] "y").1).edges
            (build [([], "x")]).edges.length
          = some { head_node := (build [([], "x")]).nodes.length, tail := [0] }
      ∧ Edge.arity { head_node := (build [([], "x")]).nodes.length, tail := [0] }
          = [0].length
      ∧ ∀ v n, nth (build [([], "x")]).nodes v = some n →
          nth ((add_function (build [([], "x")]) [0] "y").1).nodes v
            = some { n with out_edges :=
                (n.out_edges ++ List.replicate (countOcc v [0])
                  (build [([], "x")]).edges.length) }) :=
  ⟨by decide, claim_C2_add_function_post (build [([], "x")]) [0] "y" (by decide)⟩

/-- C3: in every graph built by builder calls with valid argument indices,
every edge's index is in the outgoing-edge list of each of its tail
vertices, and every entry of a vertex's outgoing-edge list names an edge
whose tail contains that vertex. -/
theorem claim_C3_link_consistency (prog : List (List Nat × String))
    (h : validCalls 0 prog = true) :
    (∀ i e, nth (build prog).edges i = some e → ∀ t ∈ e.tail,
      ∃ n, nth (build prog).nodes t = some n ∧ i ∈ n.out_edges)
    ∧ (∀ v n, nth (build prog).nodes v = some n → ∀ j ∈ n.out_edges,
      ∃ e, nth (build prog).edges j = some e ∧ v ∈ e.tail) :=
  ⟨(WF_build prog h).link_out, (WF_build prog h).link_in⟩

theorem claim_C3_witness :
    validCalls 0 [([], "x"), ([0], "y"), ([1, 0], "z")] = true
    ∧ ((∀ i e, nth (build [([], "x"), ([0], "y"), ([1, 0], "z")]).edges i = some e →
        ∀ t ∈ e.tail, ∃ n,
          nth (build [([], "x"), ([0], "y"), ([1, 0], "z")]).nodes t = some n
          ∧ i ∈ n.out_edges)
      ∧ (∀ v n, nth (build [([], "x"), ([0], "y"), ([1, 0], "z")]).nodes v = some n →
        ∀ j ∈ n.out_edges, ∃ e,
          nth (build [([], "x"), ([0], "y"), ([1, 0], "z")]).edges j = some e
          ∧ v ∈ e.tail)) :=
  ⟨by decide,
   claim_C3_link_consistency [([], "x"), ([0], "y"), ([1, 0], "z")] (by decide)⟩

/-- C4: in every graph built by builder calls, every vertex's in_edge
names the unique edge whose head is that vertex, and the edge-head mapping
is injective: no two edges share a head vertex. -/
theorem claim_C4_unique_defining_edge (prog : List (List Nat × String))
    (h : validCalls 0 prog = true) :
    (∀ v n, nth (build prog).nodes v = some n →
      (∃ e, nth (build prog).edges n.in_edge = some e ∧ e.head_node = v)
      ∧ ∀ i e, nth (build prog).edges i = some e → e.head_node = v →
          i = n.in_edge)
    ∧ ∀ i j ei ej, nth (build prog).edges i = some ei →
        nth (build prog).edges j = some ej → ei.head_node = ej.head_node →
        i = j := by
  have hwf := WF_build prog h
  constructor
  · intro v n hn
    have hin : n.in_edge = v := hwf.in_idx v n hn
    have hvE : v < (build prog).edges.length := hwf.len_eq ▸ nth_some_lt hn
    obtain ⟨e, he⟩ := lt_nth_some hvE
    constructor
    · exact ⟨e, by rw [hin]; exact he, hwf.head_idx v e he⟩
    · intro i e' hi hhead
      rw [hin, ← hhead]
      exact (hwf.head_idx i e' hi).symm
  · intro i j ei ej hi hj hh
    rw [← hwf.head_idx i ei hi, ← hwf.head_idx j ej hj]
    exact hh

theorem claim_C4_witness :
    validCalls 0 [([], "x"), ([0, 0], "y")] = true
    ∧ ((∀ v n, nth (build [([], "x"), ([0, 0], "y")]).nodes v = some n →
        (∃ e, nth (build [([], "x"), ([0, 0], "y")]).edges n.in_edge = some e
          ∧ e.head_node = v)
        ∧ ∀ i e, nth (build [([], "x"), ([0, 0], "y")]).edges i = some e →
            e.head_node = v → i = n.in_edge)
      ∧ ∀ i j ei ej, nth (build [([], "x"), ([0, 0], "y")]).edges i = some ei →
          nth (build [([], "x"), ([0, 0], "y")]).edges j = some ej →
          ei.head_node = ej.head_node → i = j) :=
  ⟨by decide,
   claim_C4_unique_defining_edge [([], "x"), ([0, 0], "y")] (by decide)⟩

/-- C5: for every non-empty graph, forward evaluates a value for every
vertex and returns the value of the last vertex of the stored sequence.
The body of Hypergraph::forward is modelled from the spec (section 4.5),
as cnn.h only declares it. -/
theorem claim_C5_forward_last {α : Type} (g : Hypergraph)
    (evalE : Nat → List α → α) (d0 : α) (h : 0 < g.nodes.length) :
    (forwardValues g evalE d0).length = g.nodes.length
    ∧ ∃ v, forward g evalE d0 = some v
        ∧ nth (forwardValues g evalE d0) (g.nodes.length - 1) = some v := by
  refine ⟨forwardValues_length g evalE d0, ?_⟩
  have hlt : g.nodes.length - 1 < (forwardValues g evalE d0).length := by
    rw [forwardValues_length]
    omega
  obtain ⟨v, hv⟩ := lt_nth_some hlt
  exact ⟨v, hv, hv⟩

theorem claim_C5_witness :
    0 < (build [([], "x"), ([0], "y")]).nodes.length
    ∧ ((forwardValues (build [([], "x"), ([0], "y")])
          (fun i xs => xs.foldl (fun a b => a + b) (i + 1)) 0).length
        = (build [([], "x"), ([0], "y")]).nodes.length
      ∧ ∃ v, forward (build [([], "x"), ([0], "y")])
            (fun i xs => xs.foldl (fun a b => a + b) (i + 1)) 0 = some v
          ∧ nth (forwardValues (build [([], "x"), ([0], "y")])
              (fun i xs => xs.foldl (fun a b => a + b) (i + 1)) 0)
              ((build [([], "x"), ([0], "y")]).nodes.length - 1) = some v) :=
  ⟨by decide,
   claim_C5_forward_last (build [([], "x"), ([0], "y")])
     (fun i xs => xs.foldl (fun a b => a + b) (i + 1)) 0 (by decide)⟩

/-- C10: when the same vertex index occurs k times in the argument list of
one add_function call, it occurs k times in the new edge's tail (which is
the argument list in order), the new edge's index is appended k times to
that vertex's outgoing-edge list, and the arity counts every occurrence. -/
theorem claim_C10_duplicates (g : Hypergraph) (args : List Nat)
    (name : String) (v : Nat) (_hv : v ∈ args) (hlt : v < g.nodes.length) :
    ∃ e, nth ((add_function g args name).1).edges g.edges.length = some e
      ∧ e.tail = args
      ∧ countOcc v e.tail = countOcc v args
      ∧ e.arity = args.length
      ∧ ∃ n, nth g.nodes v = some n
          ∧ nth ((add_function g args name).1).nodes v
              = some { n with out_edges :=
                  n.out_edges ++ List.replicate (countOcc v args) g.edges.length } := by
  refine ⟨{ head_node := g.nodes.length, tail := args }, ?_, rfl, rfl, rfl, ?_⟩
  · rw [add_function_edges]
    exact nth_concat_self g.edges _
  · obtain ⟨n, hn⟩ := lt_nth_some hlt
    exact ⟨n, hn, nth_add_function_nodes_old g args name hn⟩

theorem claim_C10_witness :
    0 ∈ [0, 0] ∧ 0 < (build [([], "x")]).nodes.length
    ∧ (∃ e, nth ((add_function (build [([], "x")]) [0, 0] "y").1).edges
          (build [([], "x")]).edges.length = some e
        ∧ e.tail = [0, 0]
        ∧ countOcc 0 e.tail = countOcc 0 [0, 0]
        ∧ e.arity = [0, 0].length
        ∧ ∃ n, nth (build [([], "x")]).nodes 0 = some n
            ∧ nth ((add_function (build [([], "x")]) [0, 0] "y").1).nodes 0
                = some { n with out_edges :=
                    (n.out_edges ++ List.replicate (countOcc 0 [0, 0])
                      (build [([], "x")]).edges.length) }) :=
  ⟨by decide, by decide,
   claim_C10_duplicates (build [([], "x")]) [0, 0] "y" 0 (by decide) (by decide)⟩

/- The Dim value type. -/

theorem Dim.ext_rc (a b : Dim) (h1 : a.rows = b.rows) (h2 : a.cols = b.cols) :
    a = b := by
  cases a
  cases b
  simp only at h1 h2
  subst h1
  subst h2
  rfl

/-- C6: the dimension product asserts a.cols == b.rows and returns
Dim(a.rows, b.cols); under the precondition a.cols == b.rows the
assertion holds (the failure branch, modelled as none, is unreachable)
and the result is (a.rows, b.cols). -/
theorem claim_C6_dim_mul (a b : Dim) (h : a.cols = b.rows) :
    dimMul a b = some (mkDim a.rows b.cols)
    ∧ (mkDim a.rows b.cols).rows = a.rows
    ∧ (mkDim a.rows b.cols).cols = b.cols := by
  refine ⟨?_, Nat.mod_eq_of_lt a.rows_lt, Nat.mod_eq_of_lt b.cols_lt⟩
  unfold dimMul
  rw [if_pos h]

theorem claim_C6_witness :
    (mkDim 2 3).cols = (mkDim 3 5).rows
    ∧ (dimMul (mkDim 2 3) (mkDim 3 5) = some (mkDim (mkDim 2 3).rows (mkDim 3 5).cols)
      ∧ (mkDim (mkDim 2 3).rows (mkDim 3 5).cols).rows = (mkDim 2 3).rows
      ∧ (mkDim (mkDim 2 3).rows (mkDim 3 5).cols).cols = (mkDim 3 5).cols) :=
  ⟨by decide, claim_C6_dim_mul (mkDim 2 3) (mkDim 3 5) (by decide)⟩

/-- C7: rows and cols live in 16-bit unsigned fields: the two-argument
constructor stores m mod 2^16 and n mod 2^16, the one-argument
constructor stores m mod 2^16, and no Dim has a field above 65535. -/
theorem claim_C7_dim_16bit :
    (∀ m n, (mkDim m n).rows = m % 65536 ∧ (mkDim m n).cols = n % 65536)
    ∧ (∀ m, (dimOfRows m).rows = m % 65536 ∧ (dimOfRows m).cols = 1)
    ∧ (∀ d : Dim, d.rows ≤ 65535 ∧ d.cols ≤ 65535) := by
  refine ⟨fun m n => ⟨rfl, rfl⟩, fun m => ⟨rfl, rfl⟩, fun d => ⟨?_, ?_⟩⟩
  · have := d.rows_lt
    omega
  · have := d.cols_lt
    omega

/-- C8 counterexample: constructing a Dim from the single value 65536
does not yield (65536, 1) — the 16-bit store truncates the row count
to 0, against the claim's unqualified reading. -/
theorem claim_C8_counterexample :
    ¬ ((dimOfRows 65536).rows = 65536 ∧ (dimOfRows 65536).cols = 1) := by
  decide

/-- C8 (amended): the default Dim is (1, 1); constructing from a single
value m yields (m mod 2^16, 1); constructing from (m, n) yields
(m mod 2^16, n mod 2^16) — hence (m, 1) and (m, n) exactly when each
value fits in 16 bits — and for every Dim d, transpose swaps rows and
cols. -/
theorem claim_C8_amended :
    (dimDefault.rows = 1 ∧ dimDefault.cols = 1)
    ∧ (∀ m, (dimOfRows m).rows = m % 65536 ∧ (dimOfRows m).cols = 1)
    ∧ (∀ m n, (mkDim m n).rows = m % 65536 ∧ (mkDim m n).cols = n % 65536)
    ∧ (∀ d : Dim, d.transpose.rows = d.cols ∧ d.transpose.cols = d.rows) :=
  ⟨⟨rfl, rfl⟩, fun _ => ⟨rfl, rfl⟩, fun _ _ => ⟨rfl, rfl⟩,
   fun d => ⟨Nat.mod_eq_of_lt d.cols_lt, Nat.mod_eq_of_lt d.rows_lt⟩⟩

/-- C9: transposition is an anti-homomorphism for the dimension product:
when a.cols == b.rows, the precondition of b.transpose * a.transpose
holds as well, and (a * b).transpose equals b.transpose * a.transpose. -/
theorem claim_C9_transpose_antihom (a b : Dim) (h : a.cols = b.rows) :
    (b.transpose).cols = (a.transpose).rows
    ∧ (dimMul a b).map Dim.transpose = dimMul b.transpose a.transpose := by
  have hc : (b.transpose).cols = (a.transpose).rows := by
    show b.rows % 65536 = a.cols % 65536
    rw [h]
  refine ⟨hc, ?_⟩
  unfold dimMul
  rw [if_pos h, if_pos hc]
  rfl

theorem claim_C9_witness :
    (mkDim 2 3).cols = (mkDim 3 5).rows
    ∧ (((mkDim 3 5).transpose).cols = ((mkDim 2 3).transpose).rows
      ∧ (dimMul (mkDim 2 3) (mkDim 3 5)).map Dim.transpose
          = dimMul (mkDim 3 5).transpose (mkDim 2 3).transpose) :=
  ⟨by decide, claim_C9_transpose_antihom (mkDim 2 3) (mkDim 3 5) (by decide)⟩

end Cnn
